import Mathlib

/-!
Verification of the `decompress-filewriter` safe-extraction core
(`src/index.ts`): the functions `safeMakeDir`,
`preventWritingThroughSymlink` and `write` (the entry materializer),
together with the filesystem primitives they call
(`realpath`, `mkdirs`, `readlink`, `link`, `symlink`,
`createWriteStream`+`pipeline`, `utimes`) and the path functions of
Node (`path.join`, `path.dirname`, `path.normalize`) and of the npm
package `strip-dirs`.

Modelling choices:
* A path is a list of segments (`CPath`); an absolute, normalized path
  string `/a/b` corresponds to `["a", "b"]` and is rendered back to a
  string by `renderPath` where the source compares path strings.
* The filesystem is an association list from canonical segment paths to
  nodes (directory, regular file, symlink).  The root `[]` always exists
  and is a directory.
* Symlink resolution follows POSIX: segments are resolved left to right,
  a symlink target is spliced in (re-rooted when absolute), and at most
  40 symlink hops are followed (`SYMLOOP_MAX`), after which resolution
  fails (ELOOP).  All recursion is structural so that every definition
  evaluates by `decide` / `rfl`.
* Mutating operations additionally return a trace of `Ev` events, one
  per node created, carrying the canonical path at which the node
  appeared.  Errors are `Err.escape` (the two "Refusing …outside…"
  throws), `Err.symlinkWriteThrough` ("Refusing to write into a
  symlink") and `Err.ioErr` (any propagated I/O failure).
* `write`'s `output` argument is treated as an absolute path string, as
  in every caller and test of the repository.
-/

namespace DFW

/-- Boolean list-prefix test; `jsStartsWith` below uses it to model
JavaScript `String.prototype.startsWith` (per-code-unit prefix). -/
def isPre : List Char → List Char → Bool
  | [], _ => true
  | _ :: _, [] => false
  | a :: as, b :: bs => a = b && isPre as bs

/-- JS `s.startsWith(pre)`. -/
def jsStartsWith (s pre : String) : Bool := isPre pre.data s.data

/-- A canonical absolute path: the list of its segments from the root. -/
abbrev CPath := List String

/-- Render a canonical path as the string `realpath` would return:
`[]` is `"/"`, `["a","b"]` is `"/a/b"`. -/
def renderData : List String → List Char
  | [] => []
  | s :: rest => '/' :: (s.data ++ renderData rest)

/-- String form of a canonical path. -/
def renderPath (p : CPath) : String :=
  match p with
  | [] => "/"
  | _ :: _ => ⟨renderData p⟩

/-- A filesystem node: directory, regular file (content bytes, POSIX
mode, modification time), or symbolic link with a literal target. -/
inductive FNode
  | dir : FNode
  | file (data : List Nat) (mode : Nat) (mtimeMs : Int) : FNode
  | symlink (target : String) : FNode
deriving DecidableEq, Repr

/-- The filesystem: an association list from canonical paths to nodes.
The root `[]` is implicitly always a directory. -/
abbrev Fs := List (CPath × FNode)

/-- Look up the node stored at canonical path `p`. -/
def findNode (fs : Fs) (p : CPath) : Option FNode :=
  (fs.find? fun e => decide (e.1 = p)).map (·.2)

/-- Predicate: `p` denotes an existing directory: the root, or a stored `dir`. -/
def isDirAt (fs : Fs) (p : CPath) : Prop :=
  p = [] ∨ findNode fs p = some .dir

instance (fs : Fs) (p : CPath) : Decidable (isDirAt fs p) := by
  unfold isDirAt; infer_instance

/-- Store node `n` at canonical path `p` (shadowing any previous
binding, which models overwrite). -/
def insertNode (fs : Fs) (p : CPath) (n : FNode) : Fs := (p, n) :: fs

/-- Split a character list at `/` separators (the semantics of
JavaScript `"…".split('/')` / Node's separator scanning). -/
def splitSlash : List Char → List (List Char)
  | [] => [[]]
  | c :: rest =>
    if c = '/' then [] :: splitSlash rest
    else
      match splitSlash rest with
      | s :: ss => (c :: s) :: ss
      | [] => [[c]]

/-- Segments of a path string (may contain `""`, `"."`, `".."`). -/
def splitSegs (s : String) : List String := (splitSlash s.data).map fun cs => ⟨cs⟩

/-- Does a path string start with `/` (is it absolute)? -/
def strIsAbs (s : String) : Bool := s.data.head? = some '/'

/-- One step of Node's `normalizeString`: fold a raw segment onto the
(reversed) stack of kept segments.  `allowUp` is true for relative
paths, where leading `..` segments are preserved. -/
def njStep (allowUp : Bool) (acc : List String) (seg : String) : List String :=
  if seg = "" ∨ seg = "." then acc
  else if seg = ".." then
    match acc with
    | top :: rest => if top = ".." then ".." :: acc else rest
    | [] => if allowUp then [".."] else []
  else seg :: acc

/-- Canonical segments of a path string interpreted as absolute:
`.`/`..`/empty segments are resolved textually, `..` at the root is
dropped (Node's behavior for absolute paths). -/
def absSegsOf (s : String) : CPath :=
  ((splitSegs s).foldl (njStep false) []).reverse

/-- Node's `path.join(output, p)` for an absolute `output`, returning
canonical segments: the concatenation is normalized textually. -/
def absJoin (output p : String) : CPath := absSegsOf (output ++ "/" ++ p)

/-- Walk plain segments left to right against the filesystem until the
list is exhausted (`inl` result), a symlink is hit (`inr`: base
directory, target, remaining segments), or a component is missing
(`none`, ENOENT). -/
def walkFlat (fs : Fs) : CPath → List String → Option (CPath ⊕ (CPath × String × List String))
  | acc, [] => some (.inl acc)
  | acc, s :: rest =>
    if s = "" ∨ s = "." then walkFlat fs acc rest
    else if s = ".." then walkFlat fs acc.dropLast rest
    else
      match findNode fs (acc ++ [s]) with
      | none => none
      | some (.symlink t) => some (.inr (acc, t, rest))
      | some _ => walkFlat fs (acc ++ [s]) rest

/-- POSIX `SYMLOOP_MAX`: at most 40 symlink traversals per resolution. -/
def symloopMax : Nat := 40

/-- Full resolution: splice symlink targets (re-rooted when absolute),
spending one hop per symlink; returns remaining hops and the canonical
result. -/
def walkSym (fs : Fs) : Nat → CPath → List String → Option (Nat × CPath)
  | 0, acc, l =>
    match walkFlat fs acc l with
    | none => none
    | some (.inl r) => some (0, r)
    | some (.inr _) => none
  | h + 1, acc, l =>
    match walkFlat fs acc l with
    | none => none
    | some (.inl r) => some (h + 1, r)
    | some (.inr (base, t, rest)) =>
      walkSym fs h (if strIsAbs t then [] else base) (splitSegs t ++ rest)

/-- Model of `fs.realpath` on a path given by segments: every component must
exist; all symlinks are resolved; fails on ENOENT/ELOOP. -/
def realpathSegs (fs : Fs) (l : List String) : Option CPath :=
  (walkSym fs symloopMax [] l).map (·.2)

/-- A creation event: the canonical path at which a mutation created a
node (and, for links, where the hardlink points). -/
inductive Ev
  | mkdir (p : CPath)
  | writeFile (p : CPath)
  | hardlink (dest : CPath) (target : CPath)
  | symlinkCreate (dest : CPath) (target : String)
deriving DecidableEq, Repr

/-- Error taxonomy of the source: the two `Refusing … outside …` throws
(`escape`), `Refusing to write into a symlink` (`symlinkWriteThrough`),
and propagated filesystem failures (`ioErr`). -/
inductive Err
  | escape
  | symlinkWriteThrough
  | ioErr
deriving DecidableEq, Repr

/-- Result of a fallible operation. -/
inductive ERes (α : Type)
  | ok : α → ERes α
  | err : Err → ERes α
deriving DecidableEq, Repr

/-- Result of one `mkdir(2)` call. -/
inductive MkRes
  | ok : Fs → List Ev → MkRes
  | eexist
  | enoent
deriving Repr

/-- Model of `mkdir(2)`: resolve the parent (following symlinks), fail ENOENT /
ENOTDIR when it is missing or not a directory, EEXIST when any node
already occupies the final component, else create one directory. -/
def mkdirOne (fs : Fs) (d : CPath) : MkRes :=
  match d.getLast? with
  | none => .eexist
  | some l =>
    match realpathSegs fs d.dropLast with
    | none => .enoent
    | some P =>
      if isDirAt fs P then
        match findNode fs (P ++ [l]) with
        | some _ => .eexist
        | none => .ok (insertNode fs (P ++ [l]) .dir) [Ev.mkdir (P ++ [l])]
      else .enoent

/-- The EEXIST fallback of `fs-extra`'s `mkdirs`: `stat` the path and
succeed exactly when it is (or resolves to) a directory. -/
def mkStat (fs : Fs) (d : CPath) : ERes (Fs × List Ev) :=
  match realpathSegs fs d with
  | some r => if isDirAt fs r then .ok (fs, []) else .err .ioErr
  | none => .err .ioErr

/-- Model of the `fs-extra` `mkdirs` (mkdir -p): try `mkdir`; on ENOENT create the
parent first and retry; on EEXIST accept an existing directory.  The
fuel argument equals the recursion depth on the parent chain and is
instantiated with the segment count in `mkdirs`. -/
def mkdirsF (fs : Fs) : Nat → CPath → ERes (Fs × List Ev)
  | fuel, d =>
    match mkdirOne fs d with
    | .ok fs' ev => .ok (fs', ev)
    | .eexist => mkStat fs d
    | .enoent =>
      match fuel with
      | 0 => .err .ioErr
      | fuel' + 1 =>
        match mkdirsF fs fuel' d.dropLast with
        | .err e => .err e
        | .ok (fs₁, ev₁) =>
          match mkdirOne fs₁ d with
          | .ok fs₂ ev₂ => .ok (fs₂, ev₁ ++ ev₂)
          | .eexist =>
            match mkStat fs₁ d with
            | .ok (f, e) => .ok (f, ev₁ ++ e)
            | .err er => .err er
          | .enoent => .err .ioErr

/-- The `mkdirs` call with sufficient fuel for its own parent chain. -/
def mkdirs (fs : Fs) (d : CPath) : ERes (Fs × List Ev) := mkdirsF fs d.length d

/-- Model of `fs.readlink(destination)`: resolve the parent fully, then read the
final component without following it; `some target` iff a symlink sits
there, `none` models the thrown ENOENT/EINVAL otherwise. -/
def readlinkFs (fs : Fs) (d : CPath) : Option String :=
  match d.getLast? with
  | none => none
  | some l =>
    match realpathSegs fs d.dropLast with
    | none => none
    | some P =>
      match findNode fs (P ++ [l]) with
      | some (.symlink t) => some t
      | _ => none

/-- Model of `fs.link(oldp, newp)`: the existing path's final component is not
followed (a hardlink to a symlink links the symlink itself); the new
path must not exist; directories cannot be hardlinked (EPERM).  The new
directory entry shares the old node's identity, modelled by storing the
same node. -/
def linkFs (fs : Fs) (oldp newp : CPath) : ERes (Fs × List Ev) :=
  match oldp.getLast?, newp.getLast? with
  | some lo, some ln =>
    match realpathSegs fs oldp.dropLast with
    | none => .err .ioErr
    | some oP =>
      match findNode fs (oP ++ [lo]) with
      | none => .err .ioErr
      | some .dir => .err .ioErr
      | some nd =>
        match realpathSegs fs newp.dropLast with
        | none => .err .ioErr
        | some nP =>
          match findNode fs (nP ++ [ln]) with
          | some _ => .err .ioErr
          | none =>
            .ok (insertNode fs (nP ++ [ln]) nd, [Ev.hardlink (nP ++ [ln]) (oP ++ [lo])])
  | _, _ => .err .ioErr

/-- Model of `fs.symlink(target, newp)`: create a symlink with the literal,
unchecked target; EEXIST if the path exists; Linux rejects an empty
target (ENOENT). -/
def symlinkFs (fs : Fs) (target : String) (newp : CPath) : ERes (Fs × List Ev) :=
  if target = "" then .err .ioErr
  else
    match newp.getLast? with
    | none => .err .ioErr
    | some ln =>
      match realpathSegs fs newp.dropLast with
      | none => .err .ioErr
      | some nP =>
        match findNode fs (nP ++ [ln]) with
        | some _ => .err .ioErr
        | none =>
          .ok (insertNode fs (nP ++ [ln]) (.symlink target), [Ev.symlinkCreate (nP ++ [ln]) target])

/-- Where `open(dest, O_CREAT|O_TRUNC|O_WRONLY)` lands: the parent is
resolved fully and a final symlink is followed (the write-through
hazard).  A final symlink with an empty or unresolvable target fails
here; in `write`'s File flow the symlink guard has already rejected any
non-empty symlink before this point. -/
def resolveOpen (fs : Fs) (d : CPath) : Option CPath :=
  match d.getLast? with
  | none => none
  | some l =>
    match realpathSegs fs d.dropLast with
    | none => none
    | some P =>
      match findNode fs (P ++ [l]) with
      | none => some (P ++ [l])
      | some (.file _ _ _) => some (P ++ [l])
      | some .dir => none
      | some (.symlink t) =>
        if t = "" then none
        else
          match walkSym fs symloopMax (if strIsAbs t then [] else P) (splitSegs t) with
          | none => none
          | some (_, q) => if isDirAt fs q then none else some q

/-- Model of `createWriteStream(dest, \x7bmode\x7d)` plus `pipeline(input, ...)`: truncate
or create the file at the resolved location with the given content. -/
def writeFileFs (fs : Fs) (d : CPath) (bytes : List Nat) (mode : Nat) : ERes (Fs × List Ev) :=
  match resolveOpen fs d with
  | none => .err .ioErr
  | some loc => .ok (insertNode fs loc (.file bytes mode 0), [Ev.writeFile loc])

/-- Model of `fs.utimes(dest, now, mtime)`: follows symlinks; updates a file's
modification time; directory timestamps are not tracked by the model. -/
def utimesFs (fs : Fs) (d : CPath) (mt : Int) : Option Fs :=
  match realpathSegs fs d with
  | none => none
  | some r =>
    match findNode fs r with
    | some (.file b m _) => some (insertNode fs r (.file b m mt))
    | some .dir => some fs
    | some (.symlink _) => some fs
    | none => if r = [] then some fs else none

/-- Result of `safeMakeDir`: outcome, final filesystem, creation trace. -/
structure SRes where
  res : ERes CPath
  fs : Fs
  trace : List Ev
deriving DecidableEq, Repr

/-- The tail of `safeMakeDir` once `realParentPath` is known (source
lines 39-44): the JS-string `startsWith` containment check, then
`mkdirs(dir)`, then `realpath(dir)` as the result. -/
def smdFinish (fs : Fs) (tr : List Ev) (realParentPath : CPath) (dir realOutputPath : CPath) : SRes :=
  if jsStartsWith (renderPath realParentPath) (renderPath realOutputPath) then
    match mkdirs fs dir with
    | .err e => ⟨.err e, fs, tr⟩
    | .ok (fs₂, evs) =>
      match realpathSegs fs₂ dir with
      | some r2 => ⟨.ok r2, fs₂, tr ++ evs⟩
      | none => ⟨.err .ioErr, fs₂, tr ++ evs⟩
  else ⟨.err .escape, fs, tr⟩

/-- The source's `safeMakeDir(dir, realOutputPath)` (lines 30-45), fuel-indexed:
try `realpath(dir)`; on failure recurse on `dirname(dir)` first.  The
recursion steps to the parent, so fuel `dir.length` always suffices
(established by `smd_fuel_irrelevant`); `realpath("/")` never fails, so
the `[]`/zero-fuel fallbacks are unreachable. -/
def safeMakeDirF (fs : Fs) : Nat → CPath → CPath → SRes
  | fuel, dir, realOutputPath =>
    match realpathSegs fs dir with
    | some rp => smdFinish fs [] rp dir realOutputPath
    | none =>
      match fuel, dir with
      | _, [] => ⟨.err .ioErr, fs, []⟩
      | 0, _ :: _ => ⟨.err .ioErr, fs, []⟩
      | f + 1, _ :: _ =>
        let r := safeMakeDirF fs f dir.dropLast realOutputPath
        match r.res with
        | .err e => ⟨.err e, r.fs, r.trace⟩
        | .ok rp => smdFinish r.fs r.trace rp dir realOutputPath

/-- The `safeMakeDir` function of the source. -/
def safeMakeDir (fs : Fs) (dir realOutputPath : CPath) : SRes :=
  safeMakeDirF fs dir.length dir realOutputPath

/-- The source's `preventWritingThroughSymlink(destination)` (lines 47-62):
`readlink` failing means nothing to guard; a symlink target is then
tested by JS truthiness — `if (symlinkPointsTo)` — so an empty-string
target falls through to the `continue` path without an error. -/
def preventWritingThroughSymlink (fs : Fs) (destination : CPath) : ERes Unit :=
  match readlinkFs fs destination with
  | none => .ok ()
  | some symlinkPointsTo =>
    if symlinkPointsTo = "" then .ok ()
    else .err .symlinkWriteThrough

/-- Join segments with `/` separators (no leading separator). -/
def joinSlashData : List String → List Char
  | [] => []
  | [s] => s.data
  | s :: rest => s.data ++ '/' :: joinSlashData rest

/-- Node's `path.normalize` (posix): resolve `.`/`..`/empty segments
textually, keep leading `..` for relative paths, preserve a trailing
slash, return `.` for an empty result. -/
def normalizeJs (p : String) : String :=
  if p = "" then "."
  else
    let isAbs := strIsAbs p
    let trail := p.data.getLast? = some '/'
    let core := ((splitSegs p).foldl (njStep (!isAbs)) []).reverse
    match core with
    | [] => if isAbs then "/" else if trail then "./" else "."
    | _ :: _ =>
      let s : String := ⟨joinSlashData core⟩
      let s := if trail then s ++ "/" else s
      if isAbs then "/" ++ s else s

/-- Node's `path.join` over a component list: empty components are
skipped, the rest are joined with `/` and normalized; all-empty input
yields `.`. -/
def joinJs (parts : List String) : String :=
  match parts.filter (fun s => s ≠ "") with
  | [] => "."
  | ps => normalizeJs ⟨joinSlashData ps⟩

/-- The npm package `strip-dirs` (as called on source line 67): it first
rejects an absolute path — `if (isAbsolute(pathStr)) throw` — modelled by
`none`; otherwise normalize, split on the separator, drop a leading `.`
component, cap the count at the number of components minus one (overflow
is allowed by default and strips down to the final component), and
rejoin. -/
def stripDirs (pathStr : String) (count : Nat) : Option String :=
  if strIsAbs pathStr then none
  else
    let comps0 := (splitSlash (normalizeJs pathStr).data).map fun cs => (⟨cs⟩ : String)
    let comps := if comps0.length > 1 ∧ comps0.head? = some "." then comps0.tail else comps0
    let c := min count (comps.length - 1)
    some (joinJs (comps.drop c))

/-- Entry kind (`file.type` strings of `@xingrz/decompress-types`). -/
inductive FType
  | file
  | directory
  | link
  | symlink
deriving DecidableEq, Repr

/-- The `File` record handed to `write`. -/
structure FileEntry where
  path : String
  type : FType
  mode : Nat
  mtime : Int
  linkname : Option String
deriving DecidableEq, Repr

/-- The options record `DecompressFileWriterOptions`. -/
structure WOptions where
  filter : Option (FileEntry → Bool) := none
  map : Option (FileEntry → FileEntry) := none
  strip : Option Nat := none

/-- Observable outcome of everything in `write` after the strip
assignment: result, filesystem, creation trace, and whether the content
stream was consumed (resumed or fully piped). -/
structure WCore where
  res : ERes Unit
  fs : Fs
  trace : List Ev
  drained : Bool
deriving DecidableEq, Repr

/-- Full observable outcome of `write`: `callerFile` is the state of
the caller's `file` object after the call (the strip assignment on
source line 67 mutates it in place; `map` is modelled as returning a
fresh record). -/
structure WOut where
  res : ERes Unit
  fs : Fs
  trace : List Ev
  callerFile : FileEntry
  drained : Bool
deriving DecidableEq, Repr

/-- Source lines 78-119: `write` after the filter — apply `map`, form
`dest = join(output, file.path)`, ensure and canonicalize the output
root, then dispatch on the entry kind: directory via `safeMakeDir`
on `dest`; otherwise `safeMakeDir` on the parent, the symlink guard for
files only, the final `startsWith` re-check, then hardlink / symlink
(hardlink fallback on win32) / streamed file write plus `utimes`. -/
def writeCore2 (win32 : Bool) (file1 : FileEntry) (input : Option (List Nat)) (output : String)
    (opts : Option WOptions) (fs : Fs) : WCore :=
  let fileB := match opts.bind (·.map) with | some m => m file1 | none => file1
  let outSegs := absSegsOf output
  let dest := absJoin output fileB.path
  match mkdirs fs outSegs with
  | .err e => ⟨.err e, fs, [], false⟩
  | .ok (fs1, ev1) =>
    match realpathSegs fs1 outSegs with
    | none => ⟨.err .ioErr, fs1, ev1, false⟩
    | some realOutputPath =>
      if fileB.type = .directory then
        let s := safeMakeDir fs1 dest realOutputPath
        match s.res with
        | .err e => ⟨.err e, s.fs, ev1 ++ s.trace, false⟩
        | .ok _ =>
          match utimesFs s.fs dest fileB.mtime with
          | some fs2 => ⟨.ok (), fs2, ev1 ++ s.trace, false⟩
          | none => ⟨.err .ioErr, s.fs, ev1 ++ s.trace, false⟩
      else
        let s := safeMakeDir fs1 dest.dropLast realOutputPath
        match s.res with
        | .err e => ⟨.err e, s.fs, ev1 ++ s.trace, false⟩
        | .ok _ =>
          match (if fileB.type = .file then preventWritingThroughSymlink s.fs dest else .ok ()) with
          | .err e => ⟨.err e, s.fs, ev1 ++ s.trace, false⟩
          | .ok _ =>
            match realpathSegs s.fs dest.dropLast with
            | none => ⟨.err .ioErr, s.fs, ev1 ++ s.trace, false⟩
            | some realDestinationDir =>
              if !jsStartsWith (renderPath realDestinationDir) (renderPath realOutputPath) then
                ⟨.err .escape, s.fs, ev1 ++ s.trace, false⟩
              else
                match fileB.type with
                | .directory => ⟨.ok (), s.fs, ev1 ++ s.trace, false⟩
                | .link =>
                  match fileB.linkname with
                  | none => ⟨.err .ioErr, s.fs, ev1 ++ s.trace, false⟩
                  | some ln =>
                    match linkFs s.fs (absJoin output ln) dest with
                    | .err e => ⟨.err e, s.fs, ev1 ++ s.trace, false⟩
                    | .ok (fs2, ev2) => ⟨.ok (), fs2, ev1 ++ s.trace ++ ev2, false⟩
                | .symlink =>
                  match fileB.linkname with
                  | none => ⟨.err .ioErr, s.fs, ev1 ++ s.trace, false⟩
                  | some ln =>
                    match (if win32 then linkFs s.fs (absJoin output ln) dest
                           else symlinkFs s.fs ln dest) with
                    | .err e => ⟨.err e, s.fs, ev1 ++ s.trace, false⟩
                    | .ok (fs2, ev2) => ⟨.ok (), fs2, ev1 ++ s.trace ++ ev2, false⟩
                | .file =>
                  match input with
                  | none => ⟨.ok (), s.fs, ev1 ++ s.trace, false⟩
                  | some bytes =>
                    match writeFileFs s.fs dest bytes fileB.mode with
                    | .err e => ⟨.err e, s.fs, ev1 ++ s.trace, true⟩
                    | .ok (fs2, ev2) =>
                      match utimesFs fs2 dest fileB.mtime with
                      | some fs3 => ⟨.ok (), fs3, ev1 ++ s.trace ++ ev2, true⟩
                      | none => ⟨.err .ioErr, fs2, ev1 ++ s.trace ++ ev2, true⟩

/-- Source lines 71-119: everything in `write` after the strip block.
`file1` is the (possibly strip-mutated) entry. -/
def writeCore (win32 : Bool) (file1 : FileEntry) (input : Option (List Nat)) (output : String)
    (opts : Option WOptions) (fs : Fs) : WCore :=
  match opts.bind (·.filter) with
  | some flt =>
    if flt file1 then writeCore2 win32 file1 input output opts fs
    else ⟨.ok (), fs, [], input.isSome⟩
  | none => writeCore2 win32 file1 input output opts fs

/-- The `write` function (default export, source lines 64-120).  When
strip is positive, `file.path = stripDirs(file.path, strip)` either
throws (absolute path — the call rejects before the assignment, so the
caller's entry is unchanged) or mutates the caller's entry in place
before the filter and map callbacks run. -/
def write (win32 : Bool) (file0 : FileEntry) (input : Option (List Nat)) (output : String)
    (opts : Option WOptions) (fs : Fs) : WOut :=
  let strip := (opts.bind (·.strip)).getD 0
  if 0 < strip then
    match stripDirs file0.path strip with
    | none => ⟨.err .ioErr, fs, [], file0, false⟩
    | some p =>
      let fileA := { file0 with path := p }
      let r : WCore :=
        if fileA.path = "." then ⟨.ok (), fs, [], false⟩
        else writeCore win32 fileA input output opts fs
      ⟨r.res, r.fs, r.trace, fileA, r.drained⟩
  else
    let r := writeCore win32 file0 input output opts fs
    ⟨r.res, r.fs, r.trace, file0, r.drained⟩

/-- A path segment with no special meaning to resolution. -/
def plainSeg (s : String) : Prop := s ≠ "" ∧ s ≠ "." ∧ s ≠ ".."

instance : DecidablePred plainSeg := fun s => by unfold plainSeg; infer_instance

/-- All segments of a path are plain — true of every path produced by
`absJoin` / `absSegsOf`. -/
def PlainP (l : List String) : Prop := ∀ s ∈ l, plainSeg s

instance (l : List String) : Decidable (PlainP l) := List.decidableBAll _ l

/-- A plain segment that also contains no separator character, so that
joining and re-splitting round-trips. -/
def cleanSeg (s : String) : Prop :=
  s ≠ "" ∧ s ≠ "." ∧ s ≠ ".." ∧ ∀ c ∈ s.data, c ≠ '/'

instance : DecidablePred cleanSeg := fun s => by unfold cleanSeg; infer_instance

/-- Well-formed filesystem: the parent of every stored node is a
directory (true of every real filesystem state). -/
def WfFs (fs : Fs) : Prop := ∀ e ∈ fs, e.1 ≠ [] → isDirAt fs e.1.dropLast

instance (fs : Fs) : Decidable (WfFs fs) := List.decidableBAll _ fs

/-- A relative path string built from segments: `relOf ["a","b"] = "a/b"`. -/
def relOf (l : List String) : String := ⟨joinSlashData l⟩

/-- Genuine segment-level containment: `p` is at or beneath `root`.
This is the correct notion the `jsStartsWith` string comparison is meant
to approximate. -/
def underRoot (root p : CPath) : Bool := root.isPrefixOf p

/-- Fixture: an output root `/out` next to a pre-existing sibling
directory `/out-evil` whose name extends the root's name. -/
def fsSibling : Fs := [(["out"], .dir), (["out-evil"], .dir)]

/-- Fixture: the entry `../out-evil/x.txt`, which `path.join` resolves
to the sibling directory. -/
def entrySibling : FileEntry := ⟨"../out-evil/x.txt", .file, 420, 0, none⟩

/-- Fixture: a symlink with an empty target at `/out/f`. -/
def fsEmptyLink : Fs := [(["out"], .dir), (["out", "f"], .symlink "")]

/-- Fixture: a symlink `/out/f -> /somewhere/x` planted at a file
destination. -/
def fsPlanted : Fs := [(["out"], .dir), (["out", "f"], .symlink "/somewhere/x")]

/-- Fixture: a symlink `/out/esc -> /evil` escaping the root. -/
def fsEscLink : Fs := [(["out"], .dir), (["evil"], .dir), (["out", "esc"], .symlink "/evil")]

/-- Fixture: an existing subdirectory `/out/sub` of the root. -/
def fsSub : Fs := [(["out"], .dir), (["out", "sub"], .dir)]

/-- Fixture: a file `/secret` outside the root `/out`. -/
def fsSecret : Fs := [(["out"], .dir), (["secret"], .file [9] 420 0)]

theorem isPre_refl (a : List Char) : isPre a a = true := by
  induction a with
  | nil => rfl
  | cons c cs ih => simp [isPre, ih]

theorem isPre_append (a b : List Char) : isPre a (a ++ b) = true := by
  induction a with
  | nil => rfl
  | cons c cs ih => simp [isPre, ih]

theorem isPre_trans {a b c : List Char} (h1 : isPre a b = true) (h2 : isPre b c = true) :
    isPre a c = true := by
  induction a generalizing b c with
  | nil => rfl
  | cons x xs ih =>
    cases b with
    | nil => simp [isPre] at h1
    | cons y ys =>
      cases c with
      | nil => simp [isPre] at h2
      | cons z zs =>
        simp only [isPre, Bool.and_eq_true, decide_eq_true_eq] at h1 h2 ⊢
        exact ⟨h1.1.trans h2.1, ih h1.2 h2.2⟩

theorem renderData_append (p q : List String) :
    renderData (p ++ q) = renderData p ++ renderData q := by
  induction p with
  | nil => rfl
  | cons s rest ih => simp [renderData, ih]

theorem jsStartsWith_render_append (p q : CPath) :
    jsStartsWith (renderPath (p ++ q)) (renderPath p) = true := by
  cases p with
  | nil =>
    cases q with
    | nil => rfl
    | cons s rest =>
      show isPre "/".data (renderData (s :: rest)) = true
      simp [renderData, isPre]
  | cons s rest =>
    cases q with
    | nil => simp [jsStartsWith, isPre_refl]
    | cons u us =>
      show isPre (renderData (s :: rest)) (renderData ((s :: rest) ++ (u :: us))) = true
      rw [renderData_append]
      exact isPre_append _ _

theorem jsStartsWith_trans {a b c : String} (h1 : jsStartsWith a b = true)
    (h2 : jsStartsWith b c = true) : jsStartsWith a c = true :=
  isPre_trans h2 h1

theorem walkFlat_append (fs : Fs) (xs ys : List String) (acc : CPath) :
    walkFlat fs acc (xs ++ ys) =
      match walkFlat fs acc xs with
      | none => none
      | some (.inl m) => walkFlat fs m ys
      | some (.inr (b, t, rest)) => some (.inr (b, t, rest ++ ys)) := by
  induction xs generalizing acc with
  | nil => simp [walkFlat]
  | cons s rest ih =>
    by_cases h1 : s = "" ∨ s = "."
    · simp [walkFlat, h1, ih]
    · by_cases h2 : s = ".."
      · simp [walkFlat, h1, h2, ih]
      · cases hf : findNode fs (acc ++ [s]) with
        | none => simp [walkFlat, h1, h2, hf]
        | some nd => cases nd <;> simp [walkFlat, h1, h2, hf, ih]

theorem walkSym_append (fs : Fs) (h : Nat) (acc : CPath) (xs ys : List String) :
    walkSym fs h acc (xs ++ ys) =
      match walkSym fs h acc xs with
      | none => none
      | some (h', m) => walkSym fs h' m ys := by
  induction h generalizing acc xs with
  | zero =>
    rw [walkSym, walkFlat_append]
    cases hw : walkFlat fs acc xs with
    | none => simp [walkSym, hw]
    | some v =>
      cases v with
      | inl m => simp [walkSym, hw]
      | inr w => simp [walkSym, hw]
  | succ n ih =>
    rw [walkSym, walkFlat_append]
    cases hw : walkFlat fs acc xs with
    | none => simp [walkSym, hw]
    | some v =>
      cases v with
      | inl m => simp [walkSym, hw]
      | inr w =>
        obtain ⟨b, t, rest⟩ := w
        simp only [walkSym, hw]
        rw [← List.append_assoc]
        exact ih _ _

theorem realpath_nil (fs : Fs) : realpathSegs fs [] = some [] := rfl

theorem realpath_last_node {fs : Fs} {init : CPath} {s : String} {r : CPath}
    (hp : plainSeg s) (h : realpathSegs fs (init ++ [s]) = some r) :
    ∃ m, realpathSegs fs init = some m ∧ ∃ nd, findNode fs (m ++ [s]) = some nd := by
  unfold realpathSegs at h ⊢
  rw [walkSym_append] at h
  cases hw : walkSym fs symloopMax [] init with
  | none => rw [hw] at h; simp at h
  | some v =>
    obtain ⟨h', m⟩ := v
    rw [hw] at h
    refine ⟨m, by simp, ?_⟩
    obtain ⟨hp1, hp2, hp3⟩ := hp
    cases hf : findNode fs (m ++ [s]) with
    | some nd => exact ⟨nd, rfl⟩
    | none =>
      exfalso
      have hflat : walkFlat fs m [s] = none := by
        simp [walkFlat, hp1, hp2, hp3, hf]
      cases h' <;> simp [walkSym, hflat] at h

theorem findNode_mem {fs : Fs} {p : CPath} {n : FNode} (h : findNode fs p = some n) :
    (p, n) ∈ fs := by
  unfold findNode at h
  cases hf : fs.find? (fun e => decide (e.1 = p)) with
  | none => rw [hf] at h; simp at h
  | some e =>
    rw [hf] at h
    have h2 : e.2 = n := by simpa using h
    have hpred : e.1 = p := by simpa using List.find?_some hf
    rw [← hpred, ← h2, Prod.mk.eta]
    exact List.mem_of_find?_eq_some hf

theorem wf_parent {fs : Fs} (hwf : WfFs fs) {p : CPath} {n : FNode}
    (h : findNode fs p = some n) (hne : p ≠ []) : isDirAt fs p.dropLast :=
  hwf _ (findNode_mem h) hne

theorem realpath_parent {fs : Fs} {d r : CPath} (hne : d ≠ [])
    (hp : PlainP d) (h : realpathSegs fs d = some r) :
    ∃ m, realpathSegs fs d.dropLast = some m ∧
      ∃ nd, findNode fs (m ++ [d.getLast hne]) = some nd := by
  have hd : d.dropLast ++ [d.getLast hne] = d := List.dropLast_append_getLast hne
  have hpl : plainSeg (d.getLast hne) := hp _ (List.getLast_mem hne)
  rw [← hd] at h
  exact realpath_last_node hpl h

theorem mkStat_resolved {fs : Fs} {d r : CPath} (hr : realpathSegs fs d = some r) :
    mkStat fs d = .ok (fs, []) ∨ mkStat fs d = .err .ioErr := by
  by_cases h : isDirAt fs r
  · left; unfold mkStat; rw [hr]; simp [h]
  · right; unfold mkStat; rw [hr]; simp [h]

theorem mkStat_ok {fs : Fs} {d : CPath} {f : Fs} {e : List Ev}
    (h : mkStat fs d = .ok (f, e)) : f = fs ∧ e = [] := by
  unfold mkStat at h
  cases hr : realpathSegs fs d with
  | none => rw [hr] at h; simp at h
  | some r =>
    rw [hr] at h
    by_cases hd : isDirAt fs r
    · simp only [hd, if_true] at h
      simp only [ERes.ok.injEq, Prod.mk.injEq] at h
      exact ⟨h.1.symm, h.2.symm⟩
    · simp [hd] at h

theorem mkStat_err {fs : Fs} {d : CPath} {e : Err} (h : mkStat fs d = .err e) :
    e = .ioErr := by
  unfold mkStat at h
  cases hr : realpathSegs fs d with
  | none =>
    rw [hr] at h
    simp only [ERes.err.injEq] at h
    exact h.symm
  | some r =>
    rw [hr] at h
    by_cases hd : isDirAt fs r
    · simp [hd] at h
    · simp only [hd, if_false] at h
      simp only [ERes.err.injEq] at h
      exact h.symm

theorem mkdirOne_nil (fs : Fs) : mkdirOne fs [] = .eexist := rfl

theorem mkdirOne_eval {fs : Fs} {d : CPath} {l : String} {m : CPath}
    (hl : d.getLast? = some l) (hm : realpathSegs fs d.dropLast = some m) :
    mkdirOne fs d =
      (if isDirAt fs m then
        match findNode fs (m ++ [l]) with
        | some _ => MkRes.eexist
        | none => MkRes.ok (insertNode fs (m ++ [l]) .dir) [Ev.mkdir (m ++ [l])]
      else .enoent) := by
  unfold mkdirOne; rw [hl, hm]

theorem mkdirs_resolved (fs : Fs) : ∀ (fuel : Nat) (d r : CPath), PlainP d →
    realpathSegs fs d = some r →
    mkdirsF fs fuel d = .ok (fs, []) ∨ mkdirsF fs fuel d = .err .ioErr := by
  intro fuel
  induction fuel with
  | zero =>
    intro d r hp hr
    rw [mkdirsF]
    cases hd : d.getLast? with
    | none =>
      have hdn : d = [] := by
        cases d with
        | nil => rfl
        | cons x xs => simp at hd
      subst hdn
      rw [mkdirOne_nil]
      exact mkStat_resolved hr
    | some l =>
      have hne : d ≠ [] := by intro hc; subst hc; simp at hd
      obtain ⟨m, hm, nd, hfn⟩ := realpath_parent hne hp hr
      have hleq : l = d.getLast hne := by
        rw [List.getLast?_eq_getLast d hne] at hd
        exact (Option.some.inj hd).symm
      by_cases hdir : isDirAt fs m
      · rw [mkdirOne_eval hd hm, if_pos hdir, hleq, hfn]
        exact mkStat_resolved hr
      · rw [mkdirOne_eval hd hm, if_neg hdir]
        right; rfl
  | succ f ih =>
    intro d r hp hr
    rw [mkdirsF]
    cases hd : d.getLast? with
    | none =>
      have hdn : d = [] := by
        cases d with
        | nil => rfl
        | cons x xs => simp at hd
      subst hdn
      rw [mkdirOne_nil]
      exact mkStat_resolved hr
    | some l =>
      have hne : d ≠ [] := by intro hc; subst hc; simp at hd
      obtain ⟨m, hm, nd, hfn⟩ := realpath_parent hne hp hr
      have hleq : l = d.getLast hne := by
        rw [List.getLast?_eq_getLast d hne] at hd
        exact (Option.some.inj hd).symm
      by_cases hdir : isDirAt fs m
      · rw [mkdirOne_eval hd hm, if_pos hdir, hleq, hfn]
        exact mkStat_resolved hr
      · rw [mkdirOne_eval hd hm, if_neg hdir]
        have hplD : PlainP d.dropLast := fun s hs => hp s (List.dropLast_subset d hs)
        rcases ih d.dropLast m hplD hm with hok | herr
        · rw [hok]
          right
          have hmk2 : mkdirOne fs d = .enoent := by
            rw [mkdirOne_eval hd hm, if_neg hdir]
          simp [hmk2]
        · rw [herr]; right; rfl

theorem mkdirsF_of_eexist {fs : Fs} {d : CPath} (h : mkdirOne fs d = .eexist) (fuel : Nat) :
    mkdirsF fs fuel d = mkStat fs d := by
  cases fuel with
  | zero => rw [mkdirsF, h]
  | succ f => rw [mkdirsF, h]

theorem mkdirsF_of_ok {fs : Fs} {d : CPath} {f : Fs} {e : List Ev}
    (h : mkdirOne fs d = .ok f e) (fuel : Nat) : mkdirsF fs fuel d = .ok (f, e) := by
  cases fuel with
  | zero => rw [mkdirsF, h]
  | succ fu => rw [mkdirsF, h]

theorem mkdirsF_of_enoent_zero {fs : Fs} {d : CPath} (h : mkdirOne fs d = .enoent) :
    mkdirsF fs 0 d = .err .ioErr := by
  rw [mkdirsF, h]

theorem mkdirsF_of_enoent_succ {fs : Fs} {d : CPath} (h : mkdirOne fs d = .enoent) (f : Nat) :
    mkdirsF fs (f + 1) d =
      (match mkdirsF fs f d.dropLast with
       | .err e => .err e
       | .ok (fs₁, ev₁) =>
         match mkdirOne fs₁ d with
         | .ok fs₂ ev₂ => .ok (fs₂, ev₁ ++ ev₂)
         | .eexist =>
           (match mkStat fs₁ d with
            | .ok (f2, e2) => .ok (f2, ev₁ ++ e2)
            | .err er => .err er)
         | .enoent => .err .ioErr) := by
  rw [mkdirsF, h]

theorem mkdirs_noop {fs : Fs} {d r : CPath} (fuel : Nat) (hp : PlainP d) (hwf : WfFs fs)
    (hr : realpathSegs fs d = some r) (hdir : isDirAt fs r) :
    mkdirsF fs fuel d = .ok (fs, []) := by
  cases hd : d.getLast? with
  | none =>
    have hdn : d = [] := by
      cases d with
      | nil => rfl
      | cons x xs => simp at hd
    subst hdn
    rw [mkdirsF_of_eexist (mkdirOne_nil fs) fuel]
    unfold mkStat; rw [hr]; simp [hdir]
  | some l =>
    have hne : d ≠ [] := by intro hc; subst hc; simp at hd
    obtain ⟨m, hm, nd, hfn⟩ := realpath_parent hne hp hr
    have hleq : l = d.getLast hne := by
      rw [List.getLast?_eq_getLast d hne] at hd
      exact (Option.some.inj hd).symm
    have hdm : isDirAt fs m := by
      have := wf_parent hwf hfn (by simp)
      rwa [List.dropLast_concat] at this
    have hmk : mkdirOne fs d = .eexist := by
      rw [mkdirOne_eval hd hm, if_pos hdm, hleq, hfn]
    rw [mkdirsF_of_eexist hmk fuel]
    unfold mkStat; rw [hr]; simp [hdir]

theorem mkdirs_events {fs : Fs} {d rp : CPath} (fuel : Nat) (hp : PlainP d)
    (hm : realpathSegs fs d.dropLast = some rp) {fs' : Fs} {evs : List Ev}
    (hok : mkdirsF fs fuel d = .ok (fs', evs)) :
    evs = [] ∨ ∃ l, d.getLast? = some l ∧ evs = [Ev.mkdir (rp ++ [l])] := by
  cases hd : d.getLast? with
  | none =>
    have hdn : d = [] := by
      cases d with
      | nil => rfl
      | cons x xs => simp at hd
    subst hdn
    rw [mkdirsF_of_eexist (mkdirOne_nil fs) fuel] at hok
    exact Or.inl (mkStat_ok hok).2
  | some l =>
    by_cases hdir : isDirAt fs rp
    · cases hfn : findNode fs (rp ++ [l]) with
      | some nd =>
        have hmk : mkdirOne fs d = .eexist := by
          rw [mkdirOne_eval hd hm, if_pos hdir, hfn]
        rw [mkdirsF_of_eexist hmk fuel] at hok
        exact Or.inl (mkStat_ok hok).2
      | none =>
        have hmk : mkdirOne fs d = .ok (insertNode fs (rp ++ [l]) .dir) [Ev.mkdir (rp ++ [l])] := by
          rw [mkdirOne_eval hd hm, if_pos hdir, hfn]
        rw [mkdirsF_of_ok hmk fuel] at hok
        simp only [ERes.ok.injEq, Prod.mk.injEq] at hok
        exact Or.inr ⟨l, rfl, hok.2.symm⟩
    · have hmk : mkdirOne fs d = .enoent := by
        rw [mkdirOne_eval hd hm, if_neg hdir]
      cases fuel with
      | zero => rw [mkdirsF_of_enoent_zero hmk] at hok; simp at hok
      | succ f =>
        rw [mkdirsF_of_enoent_succ hmk f] at hok
        have hplD : PlainP d.dropLast := fun s hs => hp s (List.dropLast_subset d hs)
        rcases mkdirs_resolved fs f d.dropLast rp hplD hm with hr2 | hr2
        · rw [hr2] at hok
          simp [hmk] at hok
        · rw [hr2] at hok
          simp at hok

theorem mkdirsF_err (fs : Fs) : ∀ (fuel : Nat) (d : CPath) (e : Err),
    mkdirsF fs fuel d = .err e → e = .ioErr := by
  intro fuel
  induction fuel with
  | zero =>
    intro d e h
    cases hm : mkdirOne fs d with
    | ok f ev => rw [mkdirsF_of_ok hm 0] at h; simp at h
    | eexist => rw [mkdirsF_of_eexist hm 0] at h; exact mkStat_err h
    | enoent =>
      rw [mkdirsF_of_enoent_zero hm] at h
      injection h with h2
      exact h2.symm
  | succ f ih =>
    intro d e h
    cases hm : mkdirOne fs d with
    | ok f2 ev => rw [mkdirsF_of_ok hm (f + 1)] at h; simp at h
    | eexist => rw [mkdirsF_of_eexist hm (f + 1)] at h; exact mkStat_err h
    | enoent =>
      rw [mkdirsF_of_enoent_succ hm f] at h
      cases hrec : mkdirsF fs f d.dropLast with
      | err e2 =>
        rw [hrec] at h
        injection h with h2
        rw [← h2]
        exact ih _ _ hrec
      | ok pr =>
        obtain ⟨fs₁, ev₁⟩ := pr
        rw [hrec] at h
        cases hm2 : mkdirOne fs₁ d with
        | ok f3 ev3 => simp [hm2] at h
        | enoent =>
          simp only [hm2] at h
          injection h with h2
          exact h2.symm
        | eexist =>
          simp only [hm2] at h
          cases hstat : mkStat fs₁ d with
          | ok pr2 =>
            obtain ⟨f4, e4⟩ := pr2
            simp [hstat] at h
          | err er =>
            rw [hstat] at h
            injection h with h2
            rw [← h2]
            exact mkStat_err hstat

theorem smdFinish_res_ok {fs : Fs} {tr : List Ev} {rp0 dir out rp : CPath}
    (h : (smdFinish fs tr rp0 dir out).res = .ok rp) :
    realpathSegs (smdFinish fs tr rp0 dir out).fs dir = some rp := by
  unfold smdFinish at h ⊢
  by_cases hc : jsStartsWith (renderPath rp0) (renderPath out) = true
  · simp only [hc, if_true] at h ⊢
    cases hm : mkdirs fs dir with
    | err e => simp [hm] at h
    | ok pr =>
      obtain ⟨fs₂, evs⟩ := pr
      cases hr2 : realpathSegs fs₂ dir with
      | none => simp [hm, hr2] at h
      | some r2 =>
        simp only [hm, hr2] at h ⊢
        simp only [ERes.ok.injEq] at h
        rw [h]
  · simp [hc] at h

theorem smdFinish_res_err {fs : Fs} {tr : List Ev} {rp0 dir out : CPath} {e : Err}
    (h : (smdFinish fs tr rp0 dir out).res = .err e) : e = .escape ∨ e = .ioErr := by
  unfold smdFinish at h
  by_cases hc : jsStartsWith (renderPath rp0) (renderPath out) = true
  · simp only [hc, if_true] at h
    cases hm : mkdirs fs dir with
    | err e2 =>
      simp only [hm] at h
      simp only [ERes.err.injEq] at h
      right
      rw [← h]
      exact mkdirsF_err fs _ _ _ hm
    | ok pr =>
      obtain ⟨fs₂, evs⟩ := pr
      cases hr2 : realpathSegs fs₂ dir with
      | none =>
        simp only [hm, hr2] at h
        simp only [ERes.err.injEq] at h
        right
        exact h.symm
      | some r2 => simp [hm, hr2] at h
  · rw [if_neg hc] at h
    simp only [ERes.err.injEq] at h
    left
    exact h.symm

theorem smdF_some {fs : Fs} {fuel : Nat} {dir out rp0 : CPath}
    (hr : realpathSegs fs dir = some rp0) :
    safeMakeDirF fs fuel dir out = smdFinish fs [] rp0 dir out := by
  cases dir with
  | nil =>
    cases fuel with
    | zero => rw [safeMakeDirF, hr]
    | succ f => rw [safeMakeDirF, hr]
  | cons x xs =>
    cases fuel with
    | zero => rw [safeMakeDirF, hr]
    | succ f => rw [safeMakeDirF, hr]

theorem smdF_none_zero {fs : Fs} {x : String} {xs out : CPath}
    (hr : realpathSegs fs (x :: xs) = none) :
    safeMakeDirF fs 0 (x :: xs) out = ⟨.err .ioErr, fs, []⟩ := by
  rw [safeMakeDirF, hr]

theorem smdF_none_succ {fs : Fs} {f : Nat} {x : String} {xs out : CPath}
    (hr : realpathSegs fs (x :: xs) = none) :
    safeMakeDirF fs (f + 1) (x :: xs) out =
      (match (safeMakeDirF fs f (x :: xs).dropLast out).res with
       | .err e => ⟨.err e, (safeMakeDirF fs f (x :: xs).dropLast out).fs,
           (safeMakeDirF fs f (x :: xs).dropLast out).trace⟩
       | .ok rp => smdFinish (safeMakeDirF fs f (x :: xs).dropLast out).fs
           (safeMakeDirF fs f (x :: xs).dropLast out).trace rp (x :: xs) out) := by
  rw [safeMakeDirF, hr]

theorem smd_res_ok {fs : Fs} {fuel : Nat} {dir out rp : CPath}
    (h : (safeMakeDirF fs fuel dir out).res = .ok rp) :
    realpathSegs (safeMakeDirF fs fuel dir out).fs dir = some rp := by
  cases hr : realpathSegs fs dir with
  | some rp0 =>
    rw [smdF_some hr] at h ⊢
    exact smdFinish_res_ok h
  | none =>
    cases dir with
    | nil => rw [realpath_nil] at hr; cases hr
    | cons x xs =>
      cases fuel with
      | zero => rw [smdF_none_zero hr] at h; simp at h
      | succ f =>
        rw [smdF_none_succ hr] at h ⊢
        cases hres : (safeMakeDirF fs f (x :: xs).dropLast out).res with
        | err e => simp only [hres] at h; simp at h
        | ok rp2 =>
          simp only [hres] at h ⊢
          exact smdFinish_res_ok h

theorem smd_res_err {fs : Fs} {out : CPath} : ∀ (fuel : Nat) (dir : CPath) (e : Err),
    (safeMakeDirF fs fuel dir out).res = .err e → e = .escape ∨ e = .ioErr := by
  intro fuel
  induction fuel with
  | zero =>
    intro dir e h
    cases hr : realpathSegs fs dir with
    | some rp0 =>
      rw [smdF_some hr] at h
      exact smdFinish_res_err h
    | none =>
      cases dir with
      | nil => rw [realpath_nil] at hr; cases hr
      | cons x xs =>
        rw [smdF_none_zero hr] at h
        simp only [ERes.err.injEq] at h
        right; exact h.symm
  | succ f ih =>
    intro dir e h
    cases hr : realpathSegs fs dir with
    | some rp0 =>
      rw [smdF_some hr] at h
      exact smdFinish_res_err h
    | none =>
      cases dir with
      | nil => rw [realpath_nil] at hr; cases hr
      | cons x xs =>
        rw [smdF_none_succ hr] at h
        cases hres : (safeMakeDirF fs f (x :: xs).dropLast out).res with
        | err e2 =>
          simp only [hres] at h
          simp only [ERes.err.injEq] at h
          rw [← h]
          exact ih _ _ hres
        | ok rp2 =>
          simp only [hres] at h
          exact smdFinish_res_err h

theorem smdFinish_trace_resolved {fs : Fs} {dir out rp0 : CPath}
    (hr : realpathSegs fs dir = some rp0) (hp : PlainP dir) {p : CPath}
    (hmem : Ev.mkdir p ∈ (smdFinish fs [] rp0 dir out).trace) :
    Ev.mkdir p ∈ ([] : List Ev) := by
  unfold smdFinish at hmem
  by_cases hc : jsStartsWith (renderPath rp0) (renderPath out) = true
  · simp only [hc, if_true] at hmem
    cases hm : mkdirs fs dir with
    | err e => simp [hm] at hmem
    | ok pr =>
      obtain ⟨fs₂, evs⟩ := pr
      rcases mkdirs_resolved fs dir.length dir rp0 hp hr with hok | herr
      · have hm2 : mkdirsF fs dir.length dir = .ok (fs₂, evs) := hm
        rw [hok] at hm2
        injection hm2 with hm3
        have hevs : evs = [] := (Prod.mk.injEq _ _ _ _ ▸ hm3).2.symm
        cases hr2 : realpathSegs fs₂ dir <;>
          simp_all [hm, hr2, hevs]
      · have hm2 : mkdirsF fs dir.length dir = .ok (fs₂, evs) := hm
        rw [herr] at hm2
        cases hm2
  · rw [if_neg hc] at hmem
    simp at hmem

theorem smdFinish_trace_catch {fs2 : Fs} {tr : List Ev} {rp dir out : CPath}
    (hm : realpathSegs fs2 dir.dropLast = some rp) (hp : PlainP dir) {p : CPath}
    (hmem : Ev.mkdir p ∈ (smdFinish fs2 tr rp dir out).trace) :
    Ev.mkdir p ∈ tr ∨
      (jsStartsWith (renderPath rp) (renderPath out) = true ∧
       ∃ l, dir.getLast? = some l ∧ p = rp ++ [l]) := by
  unfold smdFinish at hmem
  by_cases hc : jsStartsWith (renderPath rp) (renderPath out) = true
  · simp only [hc, if_true] at hmem
    cases hm2 : mkdirs fs2 dir with
    | err e => left; simpa [hm2] using hmem
    | ok pr =>
      obtain ⟨fs₃, evs⟩ := pr
      have hev := mkdirs_events dir.length hp hm (show mkdirsF fs2 dir.length dir = _ from hm2)
      have hmem2 : Ev.mkdir p ∈ tr ++ evs := by
        cases hr3 : realpathSegs fs₃ dir <;> simpa [hm2, hr3] using hmem
      rcases List.mem_append.mp hmem2 with h1 | h2
      · left; exact h1
      · rcases hev with hnil | ⟨l, hgl, hevs⟩
        · rw [hnil] at h2; simp at h2
        · right
          refine ⟨hc, l, hgl, ?_⟩
          rw [hevs] at h2
          simpa using h2
  · rw [if_neg hc] at hmem
    left
    exact hmem

theorem smd_trace_checked (fs : Fs) (out : CPath) : ∀ (fuel : Nat) (dir : CPath), PlainP dir →
    ∀ p, Ev.mkdir p ∈ (safeMakeDirF fs fuel dir out).trace →
    jsStartsWith (renderPath p) (renderPath out) = true := by
  intro fuel
  induction fuel with
  | zero =>
    intro dir hp p hmem
    cases hr : realpathSegs fs dir with
    | some rp0 =>
      rw [smdF_some hr] at hmem
      exact absurd (smdFinish_trace_resolved hr hp hmem) (by simp)
    | none =>
      cases dir with
      | nil => rw [realpath_nil] at hr; cases hr
      | cons x xs => rw [smdF_none_zero hr] at hmem; simp at hmem
  | succ f ih =>
    intro dir hp p hmem
    cases hr : realpathSegs fs dir with
    | some rp0 =>
      rw [smdF_some hr] at hmem
      exact absurd (smdFinish_trace_resolved hr hp hmem) (by simp)
    | none =>
      cases dir with
      | nil => rw [realpath_nil] at hr; cases hr
      | cons x xs =>
        rw [smdF_none_succ hr] at hmem
        have hplD : PlainP (x :: xs).dropLast := fun s hs => hp s (List.dropLast_subset _ hs)
        cases hres : (safeMakeDirF fs f (x :: xs).dropLast out).res with
        | err e =>
          simp only [hres] at hmem
          exact ih _ hplD p hmem
        | ok rp =>
          simp only [hres] at hmem
          have hl2 := smd_res_ok hres
          rcases smdFinish_trace_catch hl2 hp hmem with hin | ⟨hc, hev⟩
          · exact ih _ hplD p hin
          · obtain ⟨l, hgl, hpe⟩ := hev
            rw [hpe]
            exact jsStartsWith_trans (jsStartsWith_render_append rp [l]) hc

theorem smd_fuel (fs : Fs) (out : CPath) : ∀ (fuel n : Nat) (dir : CPath),
    dir.length ≤ fuel → dir.length ≤ n →
    safeMakeDirF fs fuel dir out = safeMakeDirF fs n dir out := by
  intro fuel
  induction fuel with
  | zero =>
    intro n dir h1 h2
    have hdn : dir = [] := List.eq_nil_of_length_eq_zero (Nat.le_zero.mp h1)
    subst hdn
    rw [smdF_some (realpath_nil fs), smdF_some (realpath_nil fs)]
  | succ f ih =>
    intro n dir h1 h2
    cases hr : realpathSegs fs dir with
    | some rp0 => rw [smdF_some hr, smdF_some hr]
    | none =>
      cases dir with
      | nil => rw [realpath_nil] at hr; cases hr
      | cons x xs =>
        cases n with
        | zero => simp at h2
        | succ m =>
          rw [smdF_none_succ hr, smdF_none_succ hr]
          have hlen : (x :: xs).dropLast.length = xs.length := by
            simp [List.length_dropLast]
          have hrec := ih m ((x :: xs).dropLast)
            (by rw [hlen]; simpa using h1) (by rw [hlen]; simpa using h2)
          rw [hrec]

theorem linkFs_err {fs : Fs} {o n : CPath} {e : Err} (h : linkFs fs o n = .err e) :
    e = .ioErr := by
  unfold linkFs at h
  repeat' split at h
  all_goals simp_all

theorem symlinkFs_err {fs : Fs} {t : String} {n : CPath} {e : Err}
    (h : symlinkFs fs t n = .err e) : e = .ioErr := by
  unfold symlinkFs at h
  repeat' split at h
  all_goals simp_all

theorem writeFileFs_err {fs : Fs} {d : CPath} {b : List Nat} {m : Nat} {e : Err}
    (h : writeFileFs fs d b m = .err e) : e = .ioErr := by
  unfold writeFileFs at h
  repeat' split at h
  all_goals simp_all

theorem write_swt_file_only (win : Bool) (f : FileEntry) (input : Option (List Nat))
    (output : String) (fs : Fs) (hty : f.type ≠ .file) :
    (write win f input output none fs).res ≠ .err .symlinkWriteThrough := by
  intro h
  unfold write writeCore writeCore2 at h
  simp only [Option.none_bind, Option.getD_none, Nat.lt_irrefl, false_and, if_false,
    hty, reduceIte] at h
  split at h
  · rename_i e heq
    simp at h
    subst h
    unfold mkdirs at heq
    cases mkdirsF_err fs _ _ _ heq
  · rename_i pr fs1 ev1 heq
    split at h
    · simp at h
    · rename_i outR hout
      split at h
      · -- directory kind
        split at h
        · rename_i e heq2
          simp at h
          subst h
          unfold safeMakeDir at heq2
          rcases smd_res_err _ _ _ heq2 with hh | hh <;> cases hh
        · rename_i a heq2
          split at h
          · simp at h
          · simp at h
      · -- non-directory kinds
        split at h
        · rename_i e heq2
          simp at h
          subst h
          unfold safeMakeDir at heq2
          rcases smd_res_err _ _ _ heq2 with hh | hh <;> cases hh
        · rename_i a heq2
          split at h
          · simp at h
          · rename_i rdd hrdd
            split at h
            · simp at h
            · split at h
              · simp at h
              · -- link
                split at h
                · simp at h
                · rename_i ln hln
                  split at h
                  · rename_i e heq3
                    simp at h
                    subst h
                    cases linkFs_err heq3
                  · simp at h
              · -- symlink
                split at h
                · simp at h
                · rename_i ln hln
                  split at h
                  · rename_i e heq3
                    simp at h
                    subst h
                    split at heq3
                    · cases linkFs_err heq3
                    · cases symlinkFs_err heq3
                  · simp at h
              · -- file kind contradicts hty
                rename_i hft
                exact hty hft
theorem write_guard_fires {fs : Fs} {output pathStr : String} {d parC outR : CPath}
    {t : String} {mode : Nat} {mt : Int} {lnk : Option String}
    {bytes : Option (List Nat)} {win : Bool} {l : String}
    (hd : absJoin output pathStr = d)
    (hmkout : mkdirs fs (absSegsOf output) = .ok (fs, []))
    (hrout : realpathSegs fs (absSegsOf output) = some outR)
    (hsm : safeMakeDir fs d.dropLast outR = ⟨.ok parC, fs, []⟩)
    (hl : d.getLast? = some l)
    (hrp : realpathSegs fs d.dropLast = some parC)
    (hnode : findNode fs (parC ++ [l]) = some (.symlink t))
    (ht : t ≠ "") :
    write win ⟨pathStr, .file, mode, mt, lnk⟩ bytes output none fs =
      ⟨.err .symlinkWriteThrough, fs, [], ⟨pathStr, .file, mode, mt, lnk⟩, false⟩ := by
  unfold write writeCore writeCore2 preventWritingThroughSymlink readlinkFs
  simp only [Option.none_bind, Option.getD_none, Nat.lt_irrefl, false_and, if_false,
    reduceIte, hd, hmkout, hrout, hsm, hl, hrp, hnode, ht]
  simp
theorem write_hardlink_unchecked {fs : Fs} {output pathStr ln : String}
    {d oldp parC outR oP : CPath} {mode : Nat} {mt : Int} {win : Bool}
    {l lo : String} {nd : FNode}
    (hd : absJoin output pathStr = d)
    (hold : absJoin output ln = oldp)
    (hmkout : mkdirs fs (absSegsOf output) = .ok (fs, []))
    (hrout : realpathSegs fs (absSegsOf output) = some outR)
    (hsm : safeMakeDir fs d.dropLast outR = ⟨.ok parC, fs, []⟩)
    (hrp : realpathSegs fs d.dropLast = some parC)
    (hchk : jsStartsWith (renderPath parC) (renderPath outR) = true)
    (hl : d.getLast? = some l)
    (hnew : findNode fs (parC ++ [l]) = none)
    (hlo : oldp.getLast? = some lo)
    (hop : realpathSegs fs oldp.dropLast = some oP)
    (hnode : findNode fs (oP ++ [lo]) = some nd)
    (hnd : nd ≠ .dir) :
    write win ⟨pathStr, .link, mode, mt, some ln⟩ none output none fs =
      ⟨.ok (), insertNode fs (parC ++ [l]) nd, [Ev.hardlink (parC ++ [l]) (oP ++ [lo])],
        ⟨pathStr, .link, mode, mt, some ln⟩, false⟩ := by
  unfold write writeCore writeCore2 linkFs
  simp only [Option.none_bind, Option.getD_none, Nat.lt_irrefl, false_and, if_false,
    reduceIte, hd, hold, hmkout, hrout, hsm, hrp, hchk, hl, hnew, hlo, hop, hnode]
  cases nd with
  | dir => exact absurd rfl hnd
  | file b m2 t2 => simp
  | symlink t2 => simp

theorem write_symlink_unchecked {fs : Fs} {output pathStr ln : String}
    {d parC outR : CPath} {mode : Nat} {mt : Int} {l : String}
    (hd : absJoin output pathStr = d)
    (hmkout : mkdirs fs (absSegsOf output) = .ok (fs, []))
    (hrout : realpathSegs fs (absSegsOf output) = some outR)
    (hsm : safeMakeDir fs d.dropLast outR = ⟨.ok parC, fs, []⟩)
    (hrp : realpathSegs fs d.dropLast = some parC)
    (hchk : jsStartsWith (renderPath parC) (renderPath outR) = true)
    (hl : d.getLast? = some l)
    (hnew : findNode fs (parC ++ [l]) = none)
    (hln : ln ≠ "") :
    write false ⟨pathStr, .symlink, mode, mt, some ln⟩ none output none fs =
      ⟨.ok (), insertNode fs (parC ++ [l]) (.symlink ln),
        [Ev.symlinkCreate (parC ++ [l]) ln],
        ⟨pathStr, .symlink, mode, mt, some ln⟩, false⟩ := by
  unfold write writeCore writeCore2 symlinkFs
  simp only [Option.none_bind, Option.getD_none, Nat.lt_irrefl, false_and, if_false,
    reduceIte, hd, hmkout, hrout, hsm, hrp, hchk, hl, hnew, hln]
  simp
theorem smd_existing {fs : Fs} {dir out rp : CPath} (fuel : Nat) (hp : PlainP dir)
    (hwf : WfFs fs) (hr : realpathSegs fs dir = some rp) (hdir : isDirAt fs rp)
    (hchk : jsStartsWith (renderPath rp) (renderPath out) = true) :
    safeMakeDirF fs fuel dir out = ⟨.ok rp, fs, []⟩ := by
  rw [smdF_some hr]
  unfold smdFinish
  have hmk : mkdirs fs dir = .ok (fs, []) := mkdirs_noop dir.length hp hwf hr hdir
  simp only [hchk, if_true, hmk, hr]
  rfl

theorem getLast?_mem_of_eq {α : Type} {l : List α} {a : α} (h : l.getLast? = some a) : a ∈ l := by
  obtain ⟨hne, heq⟩ := List.mem_getLast?_eq_getLast (show a ∈ l.getLast? from h ▸ rfl)
  rw [heq]
  exact List.getLast_mem hne

theorem string_data_ne {s : String} (h : s ≠ "") : s.data ≠ [] := by
  intro hc
  apply h
  cases s with
  | mk l =>
    simp only at hc
    subst hc
    rfl

theorem splitSlash_noSlash {cs : List Char} (h : ∀ c ∈ cs, c ≠ '/') :
    splitSlash cs = [cs] := by
  induction cs with
  | nil => rfl
  | cons c rest ih =>
    have hc : c ≠ '/' := h c (List.mem_cons_self c rest)
    have ih2 := ih fun x hx => h x (List.mem_cons_of_mem c hx)
    rw [splitSlash, if_neg hc, ih2]

theorem splitSlash_append {a : List Char} (h : ∀ c ∈ a, c ≠ '/') (b : List Char) :
    splitSlash (a ++ '/' :: b) = a :: splitSlash b := by
  induction a with
  | nil =>
    simp only [List.nil_append]
    rw [splitSlash, if_pos rfl]
  | cons c rest ih =>
    have hc : c ≠ '/' := h c (List.mem_cons_self c rest)
    have ih2 := ih fun x hx => h x (List.mem_cons_of_mem c hx)
    rw [List.cons_append, splitSlash, if_neg hc, ih2]

theorem joinSlashData_cons {s : String} {u : String} {us : List String} :
    joinSlashData (s :: u :: us) = s.data ++ '/' :: joinSlashData (u :: us) := rfl

theorem splitSegs_relOf {L : List String} (hL : L ≠ []) (hc : ∀ s ∈ L, cleanSeg s) :
    splitSegs (relOf L) = L := by
  induction L with
  | nil => cases hL rfl
  | cons s rest ih =>
    have hs := hc s (List.mem_cons_self s rest)
    cases rest with
    | nil =>
      show (splitSlash (joinSlashData [s])).map (fun cs => (⟨cs⟩ : String)) = [s]
      rw [show joinSlashData [s] = s.data from rfl, splitSlash_noSlash hs.2.2.2]
      rfl
    | cons u us =>
      show (splitSlash (joinSlashData (s :: u :: us))).map (fun cs => (⟨cs⟩ : String)) = s :: u :: us
      rw [joinSlashData_cons, splitSlash_append hs.2.2.2]
      have ih2 := ih (by simp) fun x hx => hc x (List.mem_cons_of_mem s hx)
      show (⟨s.data⟩ : String) :: (splitSlash (joinSlashData (u :: us))).map (fun cs => (⟨cs⟩ : String)) = s :: u :: us
      rw [show (⟨s.data⟩ : String) = s from rfl]
      exact congrArg (s :: ·) ih2

theorem joinSlashData_ne_nil {L : List String} (hL : L ≠ []) (hc : ∀ s ∈ L, cleanSeg s) :
    joinSlashData L ≠ [] := by
  cases L with
  | nil => cases hL rfl
  | cons s rest =>
    have hs := hc s (List.mem_cons_self s rest)
    cases rest with
    | nil => exact string_data_ne hs.1
    | cons u us =>
      rw [joinSlashData_cons]
      simp

theorem relOf_head_not_slash {L : List String} (hL : L ≠ []) (hc : ∀ s ∈ L, cleanSeg s) :
    (joinSlashData L).head? ≠ some '/' := by
  cases L with
  | nil => cases hL rfl
  | cons s rest =>
    have hs := hc s (List.mem_cons_self s rest)
    have hdata : s.data ≠ [] := string_data_ne hs.1
    cases hcs : s.data with
    | nil => cases hdata hcs
    | cons c cs =>
      have hcmem : c ∈ s.data := by rw [hcs]; exact List.mem_cons_self c cs
      have hcne : c ≠ '/' := hs.2.2.2 c hcmem
      cases rest with
      | nil =>
        show (joinSlashData [s]).head? ≠ some '/'
        rw [show joinSlashData [s] = s.data from rfl, hcs]
        simp [hcne]
      | cons u us =>
        rw [joinSlashData_cons, hcs]
        simp [hcne]

theorem relOf_last_not_slash {L : List String} (hL : L ≠ []) (hc : ∀ s ∈ L, cleanSeg s) :
    (joinSlashData L).getLast? ≠ some '/' := by
  induction L with
  | nil => cases hL rfl
  | cons s rest ih =>
    have hs := hc s (List.mem_cons_self s rest)
    cases rest with
    | nil =>
      intro h
      exact hs.2.2.2 '/' (getLast?_mem_of_eq h) rfl
    | cons u us =>
      rw [joinSlashData_cons]
      have hrest : ∀ x ∈ u :: us, cleanSeg x := fun x hx => hc x (List.mem_cons_of_mem s hx)
      have hjr : joinSlashData (u :: us) ≠ [] := joinSlashData_ne_nil (by simp) hrest
      rw [List.getLast?_append_of_ne_nil s.data (by simp)]
      rw [show ('/' :: joinSlashData (u :: us)) = ['/'] ++ joinSlashData (u :: us) from rfl]
      rw [List.getLast?_append_of_ne_nil ['/'] hjr]
      exact ih (by simp) hrest

theorem foldl_njStep {u : Bool} {L : List String} (hc : ∀ s ∈ L, cleanSeg s) :
    ∀ acc, L.foldl (njStep u) acc = L.reverse ++ acc := by
  induction L with
  | nil => intro acc; rfl
  | cons s rest ih =>
    intro acc
    have hs := hc s (List.mem_cons_self s rest)
    have hstep : njStep u acc s = s :: acc := by
      unfold njStep
      rw [if_neg (by simp [hs.1, hs.2.1]), if_neg hs.2.2.1]
    rw [List.foldl_cons, hstep, ih (fun x hx => hc x (List.mem_cons_of_mem s hx))]
    simp

theorem normalizeJs_relOf {L : List String} (hL : L ≠ []) (hc : ∀ s ∈ L, cleanSeg s) :
    normalizeJs (relOf L) = relOf L := by
  have hne : relOf L ≠ "" := by
    intro h
    apply joinSlashData_ne_nil hL hc
    have : (relOf L).data = "".data := by rw [h]
    exact this
  have habs : strIsAbs (relOf L) = false := by
    unfold strIsAbs
    simp only [decide_eq_false_iff_not]
    exact relOf_head_not_slash hL hc
  have hcore : ((splitSegs (relOf L)).foldl (njStep true) []).reverse = L := by
    rw [splitSegs_relOf hL hc, foldl_njStep hc]
    simp
  unfold normalizeJs
  rw [if_neg hne]
  simp only [habs, Bool.not_false, hcore]
  cases L with
  | nil => cases hL rfl
  | cons s rest =>
    have hlast : ¬((relOf (s :: rest)).data.getLast? = some '/') :=
      relOf_last_not_slash (List.cons_ne_nil s rest) hc
    simp only [if_neg hlast, reduceIte]
    rfl

theorem drop_sub_one {α : Type} (s : α) (rest : List α) :
    (s :: rest).drop ((s :: rest).length - 1) =
      [(s :: rest).getLast (List.cons_ne_nil s rest)] := by
  induction rest generalizing s with
  | nil => rfl
  | cons u us ih =>
    rw [show (s :: u :: us).length - 1 = us.length + 1 from rfl, List.drop_succ_cons]
    have ih2 := ih u
    rw [show (u :: us).length - 1 = us.length from rfl] at ih2
    rw [ih2]
    congr 1

theorem stripDirs_relOf {L : List String} (hL : L ≠ []) (hc : ∀ s ∈ L, cleanSeg s)
    {count : Nat} (hcount : L.length - 1 ≤ count) :
    stripDirs (relOf L) count = some (L.getLast hL) := by
  have habs : strIsAbs (relOf L) = false := by
    unfold strIsAbs
    simp only [decide_eq_false_iff_not]
    exact relOf_head_not_slash hL hc
  unfold stripDirs
  rw [if_neg (by rw [habs]; exact Bool.false_ne_true), normalizeJs_relOf hL hc]
  have hsegs : (splitSlash (relOf L).data).map (fun cs => (⟨cs⟩ : String)) = L :=
    splitSegs_relOf hL hc
  rw [hsegs]
  cases L with
  | nil => cases hL rfl
  | cons s rest =>
    have hs := hc s (List.mem_cons_self s rest)
    have hshift : ¬((s :: rest).length > 1 ∧ (s :: rest).head? = some ".") := by
      rintro ⟨-, hh⟩
      simp only [List.head?_cons, Option.some.injEq] at hh
      exact hs.2.1 hh
    simp only [if_neg hshift, inf_eq_right.mpr hcount, drop_sub_one s rest]
    unfold joinJs
    have hgl : cleanSeg ((s :: rest).getLast (List.cons_ne_nil s rest)) :=
      hc _ (List.getLast_mem (List.cons_ne_nil s rest))
    have hfil : List.filter (fun x => decide ¬(x = "")) [(s :: rest).getLast (List.cons_ne_nil s rest)]
        = [(s :: rest).getLast (List.cons_ne_nil s rest)] := by
      simp [List.filter, hgl.1]
    simp only [hfil]
    have hsingle : ∀ x ∈ [(s :: rest).getLast (List.cons_ne_nil s rest)], cleanSeg x := by
      intro x hx
      simp only [List.mem_singleton] at hx
      rw [hx]
      exact hgl
    have := @normalizeJs_relOf [(s :: rest).getLast (List.cons_ne_nil s rest)]
      (List.cons_ne_nil _ _) hsingle
    exact congrArg some this

theorem stripDirs_clean {x : String} (hx : cleanSeg x) (count : Nat) :
    stripDirs x count = some x := by
  have := @stripDirs_relOf [x] (List.cons_ne_nil x []) (by
    intro s hs
    simp only [List.mem_singleton] at hs
    rw [hs]
    exact hx) count (by simp)
  exact this
/-- C1: the claim that `write` never creates, writes, or links outside the
canonical output root fails on the code at this input: with canonical root
`/out` and a pre-existing sibling directory `/out-evil`, the File entry
`../out-evil/x.txt` joins to `/out-evil/x.txt`, whose canonical parent
string `/out-evil` passes the `startsWith("/out")` check, so the call
succeeds and the file is created outside the root with no Escape error. -/
theorem C1_escape_at_sibling_directory :
    (write false entrySibling (some [1, 2, 3]) "/out" none fsSibling).res = .ok () ∧
    (write false entrySibling (some [1, 2, 3]) "/out" none fsSibling).trace
      = [Ev.writeFile ["out-evil", "x.txt"]] ∧
    realpathSegs fsSibling (absSegsOf "/out") = some ["out"] ∧
    underRoot ["out"] ["out-evil", "x.txt"] = false := by
  refine ⟨?_, ?_, ?_, ?_⟩ <;> decide

/-- C2 (amended): the Symlink Guard fails with SymlinkWriteThrough exactly
when `readlink` returns a non-empty target; an empty-string target is falsy
in JavaScript (`if (symlinkPointsTo)`), so an empty-target symlink passes
the guard rather than being rejected, and a failed `readlink` passes too. -/
theorem C2_guard_fails_iff_target_nonempty :
    (∀ (fs : Fs) (d : CPath) (t : String), readlinkFs fs d = some t → t ≠ "" →
      preventWritingThroughSymlink fs d = .err .symlinkWriteThrough) ∧
    (∀ (fs : Fs) (d : CPath), readlinkFs fs d = some "" →
      preventWritingThroughSymlink fs d = .ok ()) ∧
    (∀ (fs : Fs) (d : CPath), readlinkFs fs d = none →
      preventWritingThroughSymlink fs d = .ok ()) := by
  refine ⟨?_, ?_, ?_⟩
  · intro fs d t h ht
    unfold preventWritingThroughSymlink
    rw [h]
    simp [ht]
  · intro fs d h
    unfold preventWritingThroughSymlink
    rw [h]
    simp
  · intro fs d h
    unfold preventWritingThroughSymlink
    rw [h]

/-- C2 counterexample: a symlink with the empty string as target sits at
the destination and `readlink` reports it, yet the guard succeeds — the
claim requires a SymlinkWriteThrough failure for any target including `""`. -/
theorem C2_counterexample_empty_target :
    findNode fsEmptyLink ["out", "f"] = some (.symlink "") ∧
    readlinkFs fsEmptyLink ["out", "f"] = some "" ∧
    preventWritingThroughSymlink fsEmptyLink ["out", "f"] = .ok () := by
  refine ⟨?_, ?_, ?_⟩ <;> decide

/-- C2 witness: the amended characterization applied to a planted symlink
with a non-empty target. -/
theorem C2_witness :
    preventWritingThroughSymlink fsPlanted ["out", "f"] = .err .symlinkWriteThrough :=
  C2_guard_fails_iff_target_nonempty.1 fsPlanted ["out", "f"] "/somewhere/x"
    (by decide) (by decide)

/-- C4: whatever directories a `safeMakeDir` call that fails with Escape has
created were created only after their resolved ancestor passed the
containment check: every `mkdir` event in the failing call's trace is at a
canonical path whose rendering passes the `startsWith` check against the
root, so creation never proceeds past a level known to escape. -/
theorem C4_no_creation_past_escape (fs : Fs) (dir out : CPath) (hp : PlainP dir)
    (_hesc : (safeMakeDir fs dir out).res = .err .escape) :
    ∀ p, Ev.mkdir p ∈ (safeMakeDir fs dir out).trace →
      jsStartsWith (renderPath p) (renderPath out) = true :=
  fun p hmem => smd_trace_checked fs out dir.length dir hp p hmem

/-- C4 witness: a destination whose parent resolves through a symlink to a
directory outside the root fails with Escape having created nothing. -/
theorem C4_witness :
    (safeMakeDir fsEscLink ["out", "esc", "sub"] ["out"]).res = .err .escape ∧
    (∀ p, Ev.mkdir p ∈ (safeMakeDir fsEscLink ["out", "esc", "sub"] ["out"]).trace →
      jsStartsWith (renderPath p) (renderPath ["out"]) = true) :=
  ⟨by decide, C4_no_creation_past_escape fsEscLink ["out", "esc", "sub"] ["out"]
    (by decide) (by decide)⟩

/-- C6: the Path Resolver is idempotent on an existing directory inside the
root: both the first and the second call succeed, return the same canonical
path, and leave the filesystem unchanged. -/
theorem C6_resolver_idempotent (fs : Fs) (dir out rp : CPath) (hp : PlainP dir)
    (hwf : WfFs fs) (hr : realpathSegs fs dir = some rp) (hdir : isDirAt fs rp)
    (hchk : jsStartsWith (renderPath rp) (renderPath out) = true) :
    safeMakeDir fs dir out = ⟨.ok rp, fs, []⟩ ∧
    safeMakeDir (safeMakeDir fs dir out).fs dir out = ⟨.ok rp, fs, []⟩ := by
  have h1 : safeMakeDir fs dir out = ⟨.ok rp, fs, []⟩ :=
    smd_existing dir.length hp hwf hr hdir hchk
  refine ⟨h1, ?_⟩
  rw [h1]
  exact h1

/-- C6 witness: the idempotence theorem applied to the existing directory
`/out/sub` inside the root `/out`. -/
theorem C6_witness :
    safeMakeDir fsSub ["out", "sub"] ["out"] = ⟨.ok ["out", "sub"], fsSub, []⟩ ∧
    safeMakeDir (safeMakeDir fsSub ["out", "sub"] ["out"]).fs ["out", "sub"] ["out"]
      = ⟨.ok ["out", "sub"], fsSub, []⟩ :=
  C6_resolver_idempotent fsSub ["out", "sub"] ["out"] ["out", "sub"]
    (by decide) (by decide) (by decide) (by decide) (by decide)

/-- C7: the recursion of `safeMakeDir` on the missing-parent case always
bottoms out within a recursion depth equal to the path's segment count:
granting the fuel-indexed recursion any budget of at least `dir.length`
yields the same result as `safeMakeDir` itself, which runs on exactly
`dir.length`. -/
theorem C7_recursion_depth_bounded (fs : Fs) (dir out : CPath) (fuel : Nat)
    (hfuel : dir.length ≤ fuel) :
    safeMakeDirF fs fuel dir out = safeMakeDir fs dir out :=
  smd_fuel fs out fuel dir.length dir hfuel (le_refl _)

/-- C7 witness: a fuel budget of 10 on a 2-segment path gives the same
result as the bare recursion. -/
theorem C7_witness :
    safeMakeDirF fsSub 10 ["out", "sub"] ["out"] = safeMakeDir fsSub ["out", "sub"] ["out"] :=
  C7_recursion_depth_bounded fsSub ["out", "sub"] ["out"] 10 (by decide)

/-- C9: the containment check is a string-prefix comparison on rendered
canonical paths: any single-segment sibling whose name extends the root's
name passes it (`/out-evil` vs `/out`), and whenever the resolved path's
rendering has the root's rendering as a string prefix, `safeMakeDir` cannot
fail with Escape. -/
theorem C9_check_is_string_compare :
    (∀ n e : String, jsStartsWith (renderPath [n ++ e]) (renderPath [n]) = true) ∧
    (∀ (fs : Fs) (dir out rp : CPath), realpathSegs fs dir = some rp →
      jsStartsWith (renderPath rp) (renderPath out) = true →
      ∀ e, (safeMakeDir fs dir out).res = .err e → e ≠ .escape) := by
  constructor
  · intro n e
    show isPre (renderData [n]) (renderData [n ++ e]) = true
    simp only [renderData, List.append_nil, isPre, String.data_append]
    simp [isPre_append]
  · intro fs dir out rp hr hchk e herr hesc
    subst hesc
    rw [show safeMakeDir fs dir out = safeMakeDirF fs dir.length dir out from rfl,
      smdF_some hr] at herr
    unfold smdFinish at herr
    rw [if_pos hchk] at herr
    cases hm : mkdirs fs dir with
    | err e2 =>
      simp only [hm] at herr
      simp only [ERes.err.injEq] at herr
      have := mkdirsF_err fs _ _ _ hm
      rw [herr] at this
      cases this
    | ok pr =>
      obtain ⟨fs₂, evs⟩ := pr
      cases hr2 : realpathSegs fs₂ dir with
      | some r2 => simp [hm, hr2] at herr
      | none => simp [hm, hr2] at herr

/-- C9 witness: the sibling `/out-evil` of the root `/out` — neither the
root nor a descendant of it — passes the string check, and with it
`safeMakeDir` on that sibling cannot raise Escape. -/
theorem C9_witness :
    jsStartsWith (renderPath [String.append "out" "-evil"]) (renderPath ["out"]) = true ∧
    underRoot ["out"] ["out-evil"] = false ∧
    (∀ e, (safeMakeDir fsSibling ["out-evil"] ["out"]).res = .err e → e ≠ .escape) :=
  ⟨C9_check_is_string_compare.1 "out" "-evil", by decide,
   C9_check_is_string_compare.2 fsSibling ["out-evil"] ["out"] ["out-evil"]
     (by decide) (by decide)⟩
/-- C3: with a symlink planted at a File entry's destination inside the
root (with a non-empty target, as on any real filesystem: Linux refuses to
create empty-target symlinks, and so does the model's own `symlink`), the
call fails with SymlinkWriteThrough after the parent has been established
and before anything is opened for writing — the filesystem is returned
unchanged and the trace is empty, so the symlink's target is untouched;
and only File-kind entries can ever produce a SymlinkWriteThrough failure. -/
theorem C3_write_through_rejected :
    (∀ (fs : Fs) (output pathStr : String) (d parC outR : CPath) (t : String)
       (mode : Nat) (mt : Int) (lnk : Option String) (bytes : Option (List Nat))
       (win : Bool) (l : String),
       absJoin output pathStr = d →
       mkdirs fs (absSegsOf output) = .ok (fs, []) →
       realpathSegs fs (absSegsOf output) = some outR →
       safeMakeDir fs d.dropLast outR = ⟨.ok parC, fs, []⟩ →
       d.getLast? = some l →
       realpathSegs fs d.dropLast = some parC →
       findNode fs (parC ++ [l]) = some (.symlink t) →
       t ≠ "" →
       write win ⟨pathStr, .file, mode, mt, lnk⟩ bytes output none fs =
         ⟨.err .symlinkWriteThrough, fs, [], ⟨pathStr, .file, mode, mt, lnk⟩, false⟩) ∧
    (∀ (win : Bool) (f : FileEntry) (input : Option (List Nat)) (output : String) (fs : Fs),
       f.type ≠ .file →
       (write win f input output none fs).res ≠ .err .symlinkWriteThrough) :=
  ⟨fun _ _ _ _ _ _ _ _ _ _ _ _ _ h1 h2 h3 h4 h5 h6 h7 h8 =>
     write_guard_fires h1 h2 h3 h4 h5 h6 h7 h8,
   write_swt_file_only⟩

/-- C3 witness: the guard theorem applied to the planted symlink
`/out/f -> /somewhere/x`, and the only-File conjunct applied to a
directory entry at the same destination. -/
theorem C3_witness :
    write false ⟨"f", .file, 420, 0, none⟩ (some [9]) "/out" none fsPlanted =
      ⟨.err .symlinkWriteThrough, fsPlanted, [], ⟨"f", .file, 420, 0, none⟩, false⟩ ∧
    (write false ⟨"f", .directory, 420, 0, none⟩ none "/out" none fsPlanted).res
      ≠ .err .symlinkWriteThrough :=
  ⟨C3_write_through_rejected.1 fsPlanted "/out" "f" ["out", "f"] ["out"] ["out"]
     "/somewhere/x" 420 0 none (some [9]) false "f"
     (by decide) (by decide) (by decide) (by decide) (by decide) (by decide)
     (by decide) (by decide),
   C3_write_through_rejected.2 false ⟨"f", .directory, 420, 0, none⟩ none "/out" fsPlanted
     (by decide)⟩
/-- C5 (amended): the claim fails as stated because `strip-dirs` caps the
count at the number of components minus one; stripping N components from an
N-segment path leaves the final segment, and `write` behaves exactly as it
would for an entry whose path is that bare final segment — in particular it
materializes the entry rather than succeeding as a no-op. -/
theorem C5_strip_is_capped (L : List String) (hL : L ≠ []) (hc : ∀ s ∈ L, cleanSeg s)
    (win : Bool) (input : Option (List Nat)) (output : String) (fs : Fs)
    (ty : FType) (mode : Nat) (mt : Int) (lnk : Option String) :
    write win ⟨relOf L, ty, mode, mt, lnk⟩ input output
        (some ⟨none, none, some L.length⟩) fs =
      write win ⟨L.getLast hL, ty, mode, mt, lnk⟩ input output
        (some ⟨none, none, some L.length⟩) fs := by
  have hpos : 0 < L.length := List.length_pos.mpr hL
  have h1 : stripDirs (relOf L) L.length = L.getLast hL :=
    stripDirs_relOf hL hc (Nat.sub_le _ _)
  have hgl : cleanSeg (L.getLast hL) := hc _ (List.getLast_mem hL)
  have h2 : stripDirs (L.getLast hL) L.length = L.getLast hL := stripDirs_clean hgl _
  unfold write
  simp only [Option.some_bind, Option.getD_some, hpos, if_true, h1, h2]

/-- C5 counterexample: the path `a/b` has exactly 2 segments; with
`strip = 2` the claim demands a trivial no-op that creates nothing, but the
code creates the file at `<root>/b`. -/
theorem C5_counterexample_strip2 :
    (write false ⟨"a/b", .file, 420, 0, none⟩ (some [7]) "/out"
        (some ⟨none, none, some 2⟩) [(["out"], .dir)]).res = .ok () ∧
    (write false ⟨"a/b", .file, 420, 0, none⟩ (some [7]) "/out"
        (some ⟨none, none, some 2⟩) [(["out"], .dir)]).trace
      = [Ev.writeFile ["out", "b"]] := by
  refine ⟨?_, ?_⟩ <;> decide

/-- C5 witness: the amended theorem applied to the 2-segment path `a/b`
with strip 2. -/
theorem C5_witness :
    write false ⟨relOf ["a", "b"], .file, 420, 0, none⟩ (some [7]) "/out"
        (some ⟨none, none, some 2⟩) [(["out"], .dir)] =
      write false ⟨["a", "b"].getLast (by simp), .file, 420, 0, none⟩ (some [7]) "/out"
        (some ⟨none, none, some 2⟩) [(["out"], .dir)] :=
  C5_strip_is_capped ["a", "b"] (by simp) (by decide) false (some [7]) "/out"
    [(["out"], .dir)] .file 420 0 none

/-- C8: for a HardLink entry the target `join(outputRoot, linkname)` is used
with no canonicalization or containment check — the call succeeds whenever
the destination's resolved parent passes the root check, with no hypothesis
at all on where the link target resolves; likewise a SymLink entry on a
platform with native symlinks stores the literal `linkname` unchecked. -/
theorem C8_link_targets_unchecked :
    (∀ (fs : Fs) (output pathStr ln : String) (d oldp parC outR oP : CPath)
       (mode : Nat) (mt : Int) (win : Bool) (l lo : String) (nd : FNode),
       absJoin output pathStr = d →
       absJoin output ln = oldp →
       mkdirs fs (absSegsOf output) = .ok (fs, []) →
       realpathSegs fs (absSegsOf output) = some outR →
       safeMakeDir fs d.dropLast outR = ⟨.ok parC, fs, []⟩ →
       realpathSegs fs d.dropLast = some parC →
       jsStartsWith (renderPath parC) (renderPath outR) = true →
       d.getLast? = some l →
       findNode fs (parC ++ [l]) = none →
       oldp.getLast? = some lo →
       realpathSegs fs oldp.dropLast = some oP →
       findNode fs (oP ++ [lo]) = some nd →
       nd ≠ .dir →
       write win ⟨pathStr, .link, mode, mt, some ln⟩ none output none fs =
         ⟨.ok (), insertNode fs (parC ++ [l]) nd,
           [Ev.hardlink (parC ++ [l]) (oP ++ [lo])],
           ⟨pathStr, .link, mode, mt, some ln⟩, false⟩) ∧
    (∀ (fs : Fs) (output pathStr ln : String) (d parC outR : CPath)
       (mode : Nat) (mt : Int) (l : String),
       absJoin output pathStr = d →
       mkdirs fs (absSegsOf output) = .ok (fs, []) →
       realpathSegs fs (absSegsOf output) = some outR →
       safeMakeDir fs d.dropLast outR = ⟨.ok parC, fs, []⟩ →
       realpathSegs fs d.dropLast = some parC →
       jsStartsWith (renderPath parC) (renderPath outR) = true →
       d.getLast? = some l →
       findNode fs (parC ++ [l]) = none →
       ln ≠ "" →
       write false ⟨pathStr, .symlink, mode, mt, some ln⟩ none output none fs =
         ⟨.ok (), insertNode fs (parC ++ [l]) (.symlink ln),
           [Ev.symlinkCreate (parC ++ [l]) ln],
           ⟨pathStr, .symlink, mode, mt, some ln⟩, false⟩) :=
  ⟨fun _ _ _ _ _ _ _ _ _ _ _ _ _ _ _ h1 h2 h3 h4 h5 h6 h7 h8 h9 h10 h11 h12 h13 =>
     write_hardlink_unchecked h1 h2 h3 h4 h5 h6 h7 h8 h9 h10 h11 h12 h13,
   fun _ _ _ _ _ _ _ _ _ _ h1 h2 h3 h4 h5 h6 h7 h8 h9 =>
     write_symlink_unchecked h1 h2 h3 h4 h5 h6 h7 h8 h9⟩

/-- C8 witness: a hardlink whose target joins and resolves to `/secret`,
outside the root `/out`, is created successfully; a symlink with the
traversal target `../../etc/passwd` is stored literally. -/
theorem C8_witness :
    (write false ⟨"l.bin", .link, 420, 0, some "../secret"⟩ none "/out" none fsSecret =
      ⟨.ok (), insertNode fsSecret ["out", "l.bin"] (.file [9] 420 0),
        [Ev.hardlink ["out", "l.bin"] ["secret"]],
        ⟨"l.bin", .link, 420, 0, some "../secret"⟩, false⟩) ∧
    underRoot ["out"] ["secret"] = false ∧
    (write false ⟨"l", .symlink, 420, 0, some "../../etc/passwd"⟩ none "/out" none
        [(["out"], .dir)] =
      ⟨.ok (), insertNode [(["out"], .dir)] ["out", "l"] (.symlink "../../etc/passwd"),
        [Ev.symlinkCreate ["out", "l"] "../../etc/passwd"],
        ⟨"l", .symlink, 420, 0, some "../../etc/passwd"⟩, false⟩) :=
  ⟨C8_link_targets_unchecked.1 fsSecret "/out" "l.bin" "../secret" ["out", "l.bin"]
     ["secret"] ["out"] ["out"] [] 420 0 false "l.bin" "secret" (.file [9] 420 0)
     (by decide) (by decide) (by decide) (by decide) (by decide) (by decide)
     (by decide) (by decide) (by decide) (by decide) (by decide) (by decide) (by decide),
   by decide,
   C8_link_targets_unchecked.2 [(["out"], .dir)] "/out" "l" "../../etc/passwd"
     ["out", "l"] ["out"] ["out"] 420 0 "l"
     (by decide) (by decide) (by decide) (by decide) (by decide) (by decide)
     (by decide) (by decide) (by decide)⟩

/-- C10 (amended): when strip is positive and strip-dirs returns (the
entry's path is relative), `write` assigns the stripped path onto the
caller's entry object in place before the filter and map callbacks run
(`map` modelled as returning a fresh record), so on every control path the
caller's object carries the stripped path; when strip-dirs throws instead
(absolute path), the throw happens before the assignment: the call fails
and the caller's object still holds its original path, with nothing
created. -/
theorem C10_strip_mutates_caller_when_relative (win : Bool) (f0 : FileEntry)
    (input : Option (List Nat)) (output : String) (opts : Option WOptions) (fs : Fs)
    (hs : 0 < (opts.bind (·.strip)).getD 0) :
    (∀ p, stripDirs f0.path ((opts.bind (·.strip)).getD 0) = some p →
      (write win f0 input output opts fs).callerFile = { f0 with path := p }) ∧
    (stripDirs f0.path ((opts.bind (·.strip)).getD 0) = none →
      (write win f0 input output opts fs).callerFile = f0 ∧
      (write win f0 input output opts fs).res = .err .ioErr ∧
      (write win f0 input output opts fs).trace = []) := by
  constructor
  · intro p hp
    unfold write
    simp only [hs, if_true, hp]
  · intro hp
    unfold write
    simp only [hs, if_true, hp]
    exact ⟨trivial, trivial, trivial⟩

/-- C10 counterexample: with the absolute entry path `/etc/passwd` and
strip 1, strip-dirs throws before the in-place assignment, so the call
fails and the caller's entry still holds the original path — the claim
requires the stripped path on the caller's object after every call. -/
theorem C10_counterexample_absolute_path :
    stripDirs "/etc/passwd" 1 = none ∧
    (write false ⟨"/etc/passwd", .file, 420, 0, none⟩ (some [7]) "/out"
        (some ⟨none, none, some 1⟩) [(["out"], .dir)]).callerFile
      = ⟨"/etc/passwd", .file, 420, 0, none⟩ ∧
    (write false ⟨"/etc/passwd", .file, 420, 0, none⟩ (some [7]) "/out"
        (some ⟨none, none, some 1⟩) [(["out"], .dir)]).res = .err .ioErr := by
  refine ⟨?_, ?_, ?_⟩ <;> decide

/-- C10 witness: with strip 1 and a filter that rejects every entry, the
caller's object still holds the stripped path `b` after the call; with an
absolute path the caller's object is returned untouched. -/
theorem C10_witness :
    (write false ⟨"a/b", .file, 420, 0, none⟩ (some [7]) "/out"
        (some ⟨some (fun _ => false), none, some 1⟩) [(["out"], .dir)]).callerFile =
      ⟨"b", .file, 420, 0, none⟩ ∧
    (write false ⟨"/x/y", .file, 420, 0, none⟩ none "/out"
        (some ⟨none, none, some 2⟩) [(["out"], .dir)]).callerFile =
      ⟨"/x/y", .file, 420, 0, none⟩ := by
  constructor
  · have h := (C10_strip_mutates_caller_when_relative false ⟨"a/b", .file, 420, 0, none⟩
      (some [7]) "/out" (some ⟨some (fun _ => false), none, some 1⟩) [(["out"], .dir)]
      (by decide)).1 "b" (by decide)
    rw [h]
  · exact ((C10_strip_mutates_caller_when_relative false ⟨"/x/y", .file, 420, 0, none⟩
      none "/out" (some ⟨none, none, some 2⟩) [(["out"], .dir)] (by decide)).2
      (by decide)).1


end DFW
